import Mathlib

/-!
# Verification of the BringYourSub chunking-and-reassembly pipeline

Shallow embedding of the core pipeline of the BringYourSub browser extension
(`shared/ai-core/chunker.ts` and the AI pipeline module): transcript size
estimation, sentence-aligned chunking, re-chunking on size-limit errors,
SRT segment timing, SRT formatting, and the per-chunk translation
orchestrator with retry/backoff.

Modelling conventions:
* JavaScript strings are `List Char`; JavaScript numbers are `ℚ` (exact
  arithmetic; where the source divides by zero the `ℚ` convention `x / 0 = 0`
  happens to produce the same observable results as the IEEE `Infinity`
  path, which is argued at the relevant definition).
* The sentence regex `[^.!?]+[.!?]+(?:\s|$)|[^.!?]+$` applied with `match`
  under the `g` flag is embedded as the deterministic scanner `sentMatchF`
  (the regex admits no observable backtracking: the character classes are
  complementary, so each alternative either fails outright or matches the
  maximal runs; on failure the scanner advances one position, exactly as
  JavaScript's global-match loop does).
* Functions whose recursion is not structural in the source (the scanner and
  the bounded retry loop) take an explicit fuel argument so that every
  definition is executable by `decide`; the fuel is always sufficient at the
  call sites used, which is proved where needed.
-/

namespace BringYourSub

/-- The sentence-terminating punctuation class `[.!?]` of the chunker regex. -/
def isPunct (c : Char) : Bool := c = '.' || c = '!' || c = '?'

/-- Whitespace as matched by the regex class `\s` and trimmed by
`String.prototype.trim` (the common ASCII whitespace characters; the exotic
Unicode members of the JavaScript class play no role in the claims). -/
def jsIsSpace (c : Char) : Bool :=
  c = ' ' || c = '\t' || c = '\n' || c = '\r' || c = Char.ofNat 11 || c = Char.ofNat 12

/-- `String.prototype.trim`, left half. -/
def trimLeft (l : List Char) : List Char := l.dropWhile jsIsSpace

/-- `String.prototype.trim`, right half. -/
def trimEnd (l : List Char) : List Char := (l.reverse.dropWhile jsIsSpace).reverse

/-- `String.prototype.trim`. -/
def trim (l : List Char) : List Char := trimEnd (trimLeft l)

/-- Split a string at every whitespace character, keeping empty pieces
(the fields between consecutive separators). Auxiliary for `jsWords`. -/
def splitSp : List Char → List (List Char)
  | [] => [[]]
  | c :: cs =>
    match splitSp cs with
    | [] => if jsIsSpace c then [[], []] else [[c]]
    | w :: ws => if jsIsSpace c then [] :: w :: ws else (c :: w) :: ws

/-- The maximal non-whitespace runs of a string, in order. Two strings are
"equal up to whitespace normalization" exactly when they have the same
`jsWords`. -/
def jsWords (l : List Char) : List (List Char) :=
  (splitSp l).filter (fun w => !w.isEmpty)

/-- `Array.prototype.join(" ")`. -/
def joinSpace : List (List Char) → List Char
  | [] => []
  | [a] => a
  | a :: rest => a ++ ' ' :: joinSpace rest

/-- The global-match scanner for the sentence regex
`[^.!?]+[.!?]+(?:\s|$)|[^.!?]+$`, with explicit fuel (the recursion advances
through the string but not structurally). At a position holding a
punctuation character neither alternative can start, so the scanner steps
forward. Otherwise the first alternative needs the maximal non-punctuation
run, then the maximal punctuation run (shorter punctuation runs put the
required `\s|$` in front of another punctuation character, so greedy
backtracking never helps), then a whitespace character (consumed) or the end
of the string; the second alternative only matches when the rest of the
string contains no punctuation at all. On failure the scanner advances one
position, as JavaScript's `g`-flag matching does. -/
def sentMatchF : ℕ → List Char → List (List Char)
  | 0, _ => []
  | _ + 1, [] => []
  | fuel + 1, c :: rest =>
    if isPunct c then sentMatchF fuel rest
    else
      let np := (c :: rest).takeWhile (fun d => !isPunct d)
      let r1 := (c :: rest).dropWhile (fun d => !isPunct d)
      if r1.isEmpty then [c :: rest]
      else
        let pr := r1.takeWhile isPunct
        match r1.dropWhile isPunct with
        | [] => [np ++ pr]
        | d :: ds =>
          if jsIsSpace d then (np ++ pr ++ [d]) :: sentMatchF fuel ds
          else sentMatchF fuel rest

/-- All matches of the sentence regex in `l` (`l.match(...) ?? []`, as a
list). The string length is always enough fuel. -/
def sentMatch (l : List Char) : List (List Char) := sentMatchF l.length l

/-- `text.match(regex) || [text]`: the sentence candidates, falling back to
the whole text when the regex finds no match. -/
def sentencesOf (text : List Char) : List (List Char) :=
  if (sentMatch text).isEmpty then [text] else sentMatch text

/-- `TranscriptChunk` of `chunker.ts`. -/
structure TranscriptChunk where
  index : ℕ
  total : ℕ
  content : List Char
  estimatedDuration : ℕ
deriving DecidableEq

/-- `TranscriptEstimates` of `chunker.ts` (`estimatedDuration` is in
minutes, rounded). -/
structure TranscriptEstimates where
  isLongVideo : Bool
  estimatedDuration : ℤ
  recommendedChunkSize : ℕ
  warningMessage : Option String
deriving DecidableEq

/-- `Math.round` (round half away from zero is irrelevant here: JavaScript's
`Math.round(x)` equals `⌊x + 1/2⌋` for every finite `x`). -/
def jsRound (q : ℚ) : ℤ := ⌊q + 1 / 2⌋

/-- The long-video warning of the 15–30 minute band. -/
def warnLong : String := "Long video detected. Processing may take a few minutes."

/-- The warning of the 30–60 minute band. -/
def warnVeryLong : String := "Very long video detected. Processing will take several minutes."

/-- The warning of the over-60-minute band. -/
def warnExtreme : String := "⚠️ Extremely long video. Processing may take a while and use significant API credits."

/-- `estimateTranscript` of `chunker.ts`. -/
def estimateTranscript (text : List Char) : TranscriptEstimates :=
  let charCount : ℕ := text.length
  let charsPerMinute : ℚ := 600
  let estimatedMinutes : ℚ := (charCount : ℚ) / charsPerMinute
  let rw : ℕ × Option String :=
    if estimatedMinutes ≤ 5 then (3000, none)
    else if estimatedMinutes ≤ 15 then (2500, none)
    else if estimatedMinutes ≤ 30 then (2000, some warnLong)
    else if estimatedMinutes ≤ 60 then (1500, some warnVeryLong)
    else (1000, some warnExtreme)
  { isLongVideo := estimatedMinutes > 15
    estimatedDuration := jsRound estimatedMinutes
    recommendedChunkSize := rw.1
    warningMessage := rw.2 }

/-- The sentence-accumulation loop of `chunkTranscript`: greedily gather
trimmed sentence candidates into the current chunk, closing it when the next
candidate would exceed `maxChars` and the chunk is non-empty. Returns the
chunk contents in order. -/
def chunkLoop (maxChars : ℕ) : List (List Char) → List Char → List (List Char)
  | [], currentChunk =>
    if (trim currentChunk).isEmpty then [] else [trim currentChunk]
  | s :: rest, currentChunk =>
    let trimmedSentence := trim s
    if trimmedSentence.isEmpty then chunkLoop maxChars rest currentChunk
    else if currentChunk.length + trimmedSentence.length > maxChars ∧ currentChunk.length > 0 then
      trim currentChunk :: chunkLoop maxChars rest trimmedSentence
    else
      chunkLoop maxChars rest
        (if currentChunk.isEmpty then trimmedSentence else currentChunk ++ ' ' :: trimmedSentence)

/-- `Math.ceil (n / 10)` on naturals: the chunker's per-chunk duration
estimate at `charsPerSecond = 10`. -/
def ceilDiv10 (n : ℕ) : ℕ := (n + 9) / 10

/-- `chunkTranscript` of `chunker.ts`. `maxTokens` is the optional second
parameter; `none` models omitting it, and because the source reads
`maxTokens || estimates.recommendedChunkSize`, a passed `0` (falsy) also
falls back to the estimator's recommendation. -/
def chunkTranscript (text : List Char) (maxTokens : Option ℕ) : List TranscriptChunk :=
  let estimates := estimateTranscript text
  let effectiveMaxTokens : ℕ :=
    match maxTokens with
    | none => estimates.recommendedChunkSize
    | some m => if m = 0 then estimates.recommendedChunkSize else m
  let charactersPerToken : ℕ := 4
  let maxChars := effectiveMaxTokens * charactersPerToken
  let chunks := chunkLoop maxChars (sentencesOf text) []
  chunks.mapIdx (fun index content =>
    { index := index + 1
      total := chunks.length
      content := content
      estimatedDuration := ceilDiv10 content.length })

/-- The grouping loop of `rechunkOnError`: push each trimmed sentence onto
the current group and close the group when it reaches `targetSize`
sentences. `targetSize = none` models the JavaScript `Infinity` produced by
`Math.ceil(n / 0)` for `factor = 0` (the length test is then never true). -/
def groupLoop (targetSize : Option ℕ) : List (List Char) → List (List Char) → List (List Char)
  | [], currentChunk =>
    if currentChunk.isEmpty then [] else [joinSpace currentChunk]
  | s :: rest, currentChunk =>
    let cur := currentChunk ++ [trim s]
    if (match targetSize with | none => false | some t => t ≤ cur.length) then
      joinSpace cur :: groupLoop targetSize rest []
    else groupLoop targetSize rest cur

/-- `rechunkOnError` of `chunker.ts`. The factor (default 2 at the sole call
site) is modelled as a natural number; `Math.ceil (n / factor)` is
`(n + factor - 1) / factor` for positive factors and `Infinity` (here
`none`) for factor 0. -/
def rechunkOnError (chunk : TranscriptChunk) (factor : ℕ) : List TranscriptChunk :=
  let sentences := sentencesOf chunk.content
  let targetSize : Option ℕ :=
    if factor = 0 then none else some ((sentences.length + factor - 1) / factor)
  let smallerChunks := groupLoop targetSize sentences []
  smallerChunks.mapIdx (fun index content =>
    { index := index + 1
      total := smallerChunks.length
      content := content
      estimatedDuration := ceilDiv10 content.length })

/-- A timed subtitle segment (the anonymous
`{content, startTime, endTime}` records of `chunker.ts`). -/
structure SubtitleSegment where
  content : List Char
  startTime : ℚ
  endTime : ℚ
deriving DecidableEq

/-- `String.prototype.padStart`. -/
def padStart (s : String) (n : ℕ) (c : Char) : String :=
  if n ≤ s.length then s else String.mk (List.replicate (n - s.length) c) ++ s

/-- JavaScript number truncation toward zero (what `a % b` divides with). -/
def jsTrunc (q : ℚ) : ℤ := if 0 ≤ q then ⌊q⌋ else -⌊-q⌋

/-- The JavaScript remainder operator `a % b` (sign of the dividend). -/
def jsMod (a b : ℚ) : ℚ := a - b * jsTrunc (a / b)

/-- `formatTime` inside `generateSRT`: render seconds as `HH:MM:SS,mmm`
with zero-padded fields and the milliseconds floored. -/
def formatTime (seconds : ℚ) : String :=
  let hrs : ℤ := ⌊seconds / 3600⌋
  let mins : ℤ := ⌊jsMod seconds 3600 / 60⌋
  let secs : ℤ := ⌊jsMod seconds 60⌋
  let ms : ℤ := ⌊jsMod seconds 1 * 1000⌋
  padStart (toString hrs) 2 '0' ++ ":" ++ padStart (toString mins) 2 '0' ++ ":" ++
    padStart (toString secs) 2 '0' ++ "," ++ padStart (toString ms) 3 '0'

/-- `generateSRT` of `chunker.ts`: number the entries from 1 and join the
`<n>\n<start> --> <end>\n<content>\n` blocks with newlines. -/
def generateSRT (chunks : List SubtitleSegment) : String :=
  String.intercalate "\n" (chunks.mapIdx (fun index chunk =>
    toString (index + 1) ++ "\n" ++ formatTime chunk.startTime ++ " --> " ++
      formatTime chunk.endTime ++ "\n" ++ String.mk chunk.content ++ "\n"))

/-- The accumulation loop of `splitIntoSRTSegments`: close the current
segment when adding the next trimmed sentence would push its estimated
duration past the 5-second target; the closed segment's end time becomes
the next start time, and the final segment's end time is forced to
`tot`. -/
def segLoop (cps tot : ℚ) : List (List Char) → List Char → ℚ → List SubtitleSegment
  | [], currentSegment, currentStartTime =>
    if currentSegment.isEmpty then []
    else [⟨currentSegment, currentStartTime, tot⟩]
  | s :: rest, currentSegment, currentStartTime =>
    let trimmed := trim s
    if trimmed.isEmpty then segLoop cps tot rest currentSegment currentStartTime
    else if ¬currentSegment.isEmpty ∧
        (currentSegment.length : ℚ) / cps + (trimmed.length : ℚ) / cps > 5 then
      let endTime := currentStartTime + (currentSegment.length : ℚ) / cps
      ⟨currentSegment, currentStartTime, endTime⟩ :: segLoop cps tot rest trimmed endTime
    else
      segLoop cps tot rest
        (if currentSegment.isEmpty then trimmed else currentSegment ++ ' ' :: trimmed)
        currentStartTime

/-- `splitIntoSRTSegments` of `chunker.ts`. The rate is
`text.length / totalDuration`; in the source a zero `totalDuration` makes
the rate `Infinity` (or `NaN` for empty text), every per-sentence duration
`0`, and the 5-second test false — the `ℚ` convention `x / 0 = 0` makes the
rate and the per-sentence durations `0` with the same false test and the
same output, so the embedding agrees with the source observably also at
`totalDuration = 0`. -/
def splitIntoSRTSegments (text : List Char) (totalDuration : ℚ) : List SubtitleSegment :=
  let charsPerSecond : ℚ := (text.length : ℚ) / totalDuration
  segLoop charsPerSecond totalDuration (sentencesOf text) [] 0

/-! ## The AI pipeline (`pipeline.ts`)

The external `fetch` call of `callOpenAI` is modelled by an oracle giving
the outcome of each attempt; for the chunk-level functions the oracle is
keyed by the user-message content (the chunk text being translated), which
is the only part of the request that varies between chunks. -/

/-- The observable outcome of one `fetch` attempt: a 2xx response carrying
translated content, a non-ok HTTP response carrying the parsed error body
(status, `error.message`, `error.code`), or an exception thrown by
`fetch`/`json` themselves. -/
inductive FetchResult where
  | ok (content : List Char)
  | httpErr (status : ℕ) (message : List Char) (code : Option (List Char))
  | thrown (message : List Char)
deriving DecidableEq

/-- A resolved (`success`) or rejected (`failure`, with the error message)
promise returned by `callOpenAI`. -/
inductive CallResult where
  | success (content : List Char)
  | failure (message : List Char)
deriving DecidableEq

/-- What one `callOpenAI` call tree does: its settled result, how many times
it incremented `stats.retriedChunks`, and the backoff delays it slept, in
order. -/
structure CallOut where
  result : CallResult
  retried : ℕ
  delays : List ℕ
deriving DecidableEq

/-- `maxRetries` of `callOpenAI`. -/
def maxRetries : ℕ := 3

/-- `baseDelay` of `callOpenAI`, in milliseconds. -/
def baseDelay : ℕ := 1000

/-- The fallback error text `"OpenAI API request failed"`. -/
def defaultErrMsg : List Char := "OpenAI API request failed".toList

/-- The distinguished size-limit error message thrown by `callOpenAI`. -/
def tokenLimitMsg : List Char := "TOKEN_LIMIT_EXCEEDED".toList

/-- The provider error code that signals the size limit. -/
def contextLengthCode : List Char := "context_length_exceeded".toList

/-- `String.prototype.includes`. -/
def containsSub (s pat : List Char) : Bool :=
  pat.isPrefixOf s ||
    match s with
    | [] => false
    | _ :: rest => containsSub rest pat

/-- The retry test of `callOpenAI`'s catch block: retries remain and the
thrown message mentions neither `TOKEN_LIMIT` nor `Invalid API`. -/
def shouldCatchRetry (retryCount : ℕ) (msg : List Char) : Bool :=
  decide (retryCount < maxRetries) &&
    !containsSub msg "TOKEN_LIMIT".toList && !containsSub msg "Invalid API".toList

/-- The body of `callOpenAI`, with fuel (the recursion increments
`retryCount`, bounded by the `retryCount < maxRetries` guards; fuel
`4 - retryCount` always suffices). A 429 status with retries remaining
sleeps `baseDelay * 2 ^ retryCount`, increments the retried counter and
recurses; otherwise the code `context_length_exceeded` converts the error
into the distinguished `TOKEN_LIMIT_EXCEEDED` message; any message thrown
inside the `try` is then caught and retried under `shouldCatchRetry`,
with the same backoff and counter increment, else the call rejects. -/
def callGo (oracle : ℕ → FetchResult) : ℕ → ℕ → CallOut
  | 0, _ => ⟨.failure [], 0, []⟩
  | fuel + 1, retryCount =>
    match oracle retryCount with
    | .ok content => ⟨.success content, 0, []⟩
    | .httpErr status message code =>
      let errorMessage := if message.isEmpty then defaultErrMsg else message
      if status = 429 ∧ retryCount < maxRetries then
        let r := callGo oracle fuel (retryCount + 1)
        ⟨r.result, r.retried + 1, baseDelay * 2 ^ retryCount :: r.delays⟩
      else
        let thrownMsg := if code = some contextLengthCode then tokenLimitMsg else errorMessage
        if shouldCatchRetry retryCount thrownMsg then
          let r := callGo oracle fuel (retryCount + 1)
          ⟨r.result, r.retried + 1, baseDelay * 2 ^ retryCount :: r.delays⟩
        else ⟨.failure thrownMsg, 0, []⟩
    | .thrown message =>
      if shouldCatchRetry retryCount message then
        let r := callGo oracle fuel (retryCount + 1)
        ⟨r.result, r.retried + 1, baseDelay * 2 ^ retryCount :: r.delays⟩
      else ⟨.failure message, 0, []⟩

/-- `callOpenAI` of `pipeline.ts` (see `callGo` for the semantics). -/
def callOpenAI (oracle : ℕ → FetchResult) (retryCount : ℕ) : CallOut :=
  callGo oracle (4 - retryCount) retryCount

/-- `ChunkResult` of `pipeline.ts`. -/
structure ChunkResult where
  index : ℕ
  success : Bool
  translation : Option (List Char)
  error : Option (List Char)
deriving DecidableEq

/-- The `{content, index, total}` argument of `translateChunk`. -/
structure ChunkIn where
  content : List Char
  index : ℕ
  total : ℕ
deriving DecidableEq

/-- A `translateChunk` call tree's outcome: the `ChunkResult` it returns
plus the number of retried-counter increments its `callOpenAI` calls
performed. -/
structure TCOut where
  res : ChunkResult
  retried : ℕ
deriving DecidableEq

/-- The JavaScript truthiness test `result.success && result.translation`
used when collecting sub-chunk translations (an empty translation string is
falsy and is skipped). -/
def succOk (out : TCOut) : Bool :=
  out.res.success && !(out.res.translation.getD []).isEmpty

/-- `translateChunk` of `pipeline.ts`. The oracle is keyed by the chunk
content; `fuel` bounds the size-limit re-chunk recursion, which the source
leaves unbounded — `none` means the recursion does not resolve within
`fuel` levels, i.e. the source diverges making external calls forever (a
single-sentence chunk re-chunks to itself). On a `TOKEN_LIMIT_EXCEEDED`
failure the chunk is re-chunked with the default factor 2, the smaller
chunks are translated by the same procedure, and their successful truthy
translations are joined with spaces as the parent's translation; with no
such translation the parent fails. Any other failure fails the chunk. -/
def translateChunk (oracle : List Char → ℕ → FetchResult) : ℕ → ChunkIn → Option TCOut
  | fuel, chunk =>
    let call := callOpenAI (oracle chunk.content) 0
    match call.result with
    | .success t => some ⟨⟨chunk.index, true, some (trim t), none⟩, call.retried⟩
    | .failure errorMessage =>
      if errorMessage = tokenLimitMsg then
        match fuel with
        | 0 => none
        | fuel' + 1 =>
          let smallerChunks := rechunkOnError ⟨chunk.index, chunk.total, chunk.content, 0⟩ 2
          let subOuts := smallerChunks.map fun sc =>
            translateChunk oracle fuel' ⟨sc.content, sc.index, sc.total⟩
          if subOuts.all Option.isSome then
            let rs := subOuts.reduceOption
            let results := rs.filterMap fun r =>
              if succOk r then r.res.translation else none
            let retried := call.retried + (rs.map TCOut.retried).sum
            if results.isEmpty then
              some ⟨⟨chunk.index, false, none, some errorMessage⟩, retried⟩
            else
              some ⟨⟨chunk.index, true, some (joinSpace results), none⟩, retried⟩
          else none
      else some ⟨⟨chunk.index, false, none, some errorMessage⟩, call.retried⟩

/-- `PipelineStats` of `pipeline.ts`. -/
structure PipelineStats where
  totalChunks : ℕ
  successfulChunks : ℕ
  failedChunks : ℕ
  retriedChunks : ℕ
  usedWhisper : Bool
deriving DecidableEq

/-- An input chunk of `translateChunks`. -/
structure PChunk where
  content : List Char
  index : ℕ
  total : ℕ
  estimatedDuration : ℚ
deriving DecidableEq

/-- An element of the `translations` array of `translateChunks`. -/
structure TimedTranslation where
  content : List Char
  index : ℕ
  duration : ℚ
deriving DecidableEq

/-- The failed-chunk fallback text
`[Translation failed: ${chunk.content.substring(0, 100)}...]`. -/
def placeholderContent (content : List Char) : List Char :=
  "[Translation failed: ".toList ++ content.take 100 ++ "...]".toList

/-- The per-chunk step of `translateChunks`: a truthy successful
translation is pushed as this slot's content, anything else pushes the
bounded placeholder echoing the chunk's source text. -/
def slotOf (chunk : PChunk) (out : TCOut) : TimedTranslation :=
  if succOk out then
    ⟨out.res.translation.getD [], out.res.index, chunk.estimatedDuration⟩
  else
    ⟨placeholderContent chunk.content, chunk.index, chunk.estimatedDuration⟩

/-- One chunk of the `translateChunks` loop: the slot pushed onto
`translations`, whether it counted as successful, and the retried-counter
increments. `none` when `translateChunk` diverges. -/
def translateOne (oracle : List Char → ℕ → FetchResult) (fuel : ℕ) (chunk : PChunk) :
    Option (TimedTranslation × Bool × ℕ) :=
  (translateChunk oracle fuel ⟨chunk.content, chunk.index, chunk.total⟩).map fun out =>
    (slotOf chunk out, succOk out, out.retried)

/-- The `translations.sort((a, b) => a.index - b.index)` step (stable, as
in the engines the extension targets). -/
def sortByIndex (l : List TimedTranslation) : List TimedTranslation :=
  l.mergeSort (fun a b => decide (a.index ≤ b.index))

/-- The timestamp-accumulation loop of `translateChunks`: each
translation's text is split into SRT segments against its duration, the
segments are offset by the running total, and the total advances by the
chunk's duration. -/
def timeLoop : List TimedTranslation → ℚ → List SubtitleSegment
  | [], _ => []
  | tr :: rest, currentTime =>
    ((splitIntoSRTSegments tr.content tr.duration).map fun segment =>
      ⟨segment.content, currentTime + segment.startTime, currentTime + segment.endTime⟩) ++
      timeLoop rest (currentTime + tr.duration)

/-- `translateChunks` of `pipeline.ts`: translate every chunk in order
(absorbing per-chunk failures into placeholder slots), sort by index,
derive timed segments, and return the SRT text plus the run's stats.
`none` exactly when some chunk's size-limit recursion diverges. -/
def translateChunks (oracle : List Char → ℕ → FetchResult) (fuel : ℕ)
    (chunks : List PChunk) : Option (String × PipelineStats) :=
  let outs := chunks.map (translateOne oracle fuel)
  if outs.all Option.isSome then
    let rs := outs.reduceOption
    some (generateSRT (timeLoop (sortByIndex (rs.map fun r => r.1)) 0),
      { totalChunks := chunks.length
        successfulChunks := (rs.filter fun r => r.2.1).length
        failedChunks := (rs.filter fun r => !r.2.1).length
        retriedChunks := (rs.map fun r => r.2.2).sum
        usedWhisper := false })
  else none

/-! ## Whitespace and word lemmas

"Equal up to whitespace normalization" is formalised as having the same
`jsWords` (the same maximal non-whitespace runs in the same order). -/

theorem splitSp_ne_nil (l : List Char) : splitSp l ≠ [] := by
  cases l with
  | nil => simp [splitSp]
  | cons c cs =>
    rcases h : splitSp cs with _ | ⟨w, ws⟩ <;> rcases hsx : jsIsSpace c <;>
      simp [splitSp, h, hsx]

theorem splitSp_append_space {c : Char} (hc : jsIsSpace c = true) (a b : List Char) :
    splitSp (a ++ c :: b) = splitSp a ++ splitSp b := by
  induction a with
  | nil =>
    rcases h : splitSp b with _ | ⟨w, ws⟩
    · exact absurd h (splitSp_ne_nil b)
    · simp [splitSp, h, hc]
  | cons x xs ih =>
    rcases h : splitSp xs with _ | ⟨w, ws⟩
    · exact absurd h (splitSp_ne_nil xs)
    · have hx : splitSp (xs ++ c :: b) = w :: (ws ++ splitSp b) := by
        rw [ih, h]; rfl
      rcases hsx : jsIsSpace x <;> simp [splitSp, hx, h, hsx]

theorem jsWords_append_space {c : Char} (hc : jsIsSpace c = true) (a b : List Char) :
    jsWords (a ++ c :: b) = jsWords a ++ jsWords b := by
  simp [jsWords, splitSp_append_space hc, List.filter_append]

theorem jsWords_cons_space {c : Char} (hc : jsIsSpace c = true) (l : List Char) :
    jsWords (c :: l) = jsWords l := by
  simpa using jsWords_append_space hc [] l

theorem jsWords_all_space {s : List Char} (hs : ∀ x ∈ s, jsIsSpace x = true) :
    jsWords s = [] := by
  induction s with
  | nil => rfl
  | cons c cs ih =>
    rw [jsWords_cons_space (hs c (by simp))]
    exact ih fun x hx => hs x (by simp [hx])

theorem jsWords_append_all_space {s : List Char} (hs : ∀ x ∈ s, jsIsSpace x = true)
    (a : List Char) : jsWords (a ++ s) = jsWords a := by
  cases s with
  | nil => simp
  | cons c cs =>
    have h2 : jsWords cs = [] :=
      jsWords_all_space fun x hx => hs x (List.mem_cons_of_mem _ hx)
    rw [jsWords_append_space (hs c (by simp)) a cs, h2, List.append_nil]

theorem jsWords_trimLeft (l : List Char) : jsWords (trimLeft l) = jsWords l := by
  rw [trimLeft]
  induction l with
  | nil => rfl
  | cons c cs ih =>
    rcases h : jsIsSpace c with _ | _
    · simp [List.dropWhile, h]
    · simp only [List.dropWhile, h]
      rw [ih, jsWords_cons_space h]

theorem jsWords_trimEnd (l : List Char) : jsWords (trimEnd l) = jsWords l := by
  conv_rhs => rw [show l = trimEnd l ++ (l.reverse.takeWhile jsIsSpace).reverse by
    rw [trimEnd, ← List.reverse_append, List.takeWhile_append_dropWhile, List.reverse_reverse]]
  rw [jsWords_append_all_space]
  intro x hx
  exact List.mem_takeWhile_imp (List.mem_reverse.mp hx)

theorem jsWords_trim (l : List Char) : jsWords (trim l) = jsWords l := by
  rw [trim, jsWords_trimEnd, jsWords_trimLeft]

theorem jsWords_joinSpace (ls : List (List Char)) :
    jsWords (joinSpace ls) = (ls.map jsWords).flatten := by
  induction ls with
  | nil => rfl
  | cons a rest ih =>
    cases rest with
    | nil => simp [joinSpace]
    | cons b tl =>
      rw [show joinSpace (a :: b :: tl) = a ++ ' ' :: joinSpace (b :: tl) from rfl,
        jsWords_append_space (by decide), ih]
      simp

/-! ## Sentence-tokenizer lemmas -/

theorem sentMatchF_nil (f : ℕ) : sentMatchF f [] = [] := by cases f <;> rfl

/-- Concatenating the words of the sentence matches gives the words of
their concatenation: every match except possibly the last ends in a
whitespace character, so word runs never straddle a match boundary. -/
theorem jsWords_sentMatchF_flatten (fuel : ℕ) :
    ∀ l : List Char, l.length ≤ fuel →
      jsWords (sentMatchF fuel l).flatten = ((sentMatchF fuel l).map jsWords).flatten := by
  induction fuel with
  | zero =>
    intro l hl
    rw [List.length_eq_zero.mp (Nat.le_zero.mp hl)]
    rfl
  | succ f ih =>
    intro l hl
    cases l with
    | nil => rfl
    | cons c rest =>
      have hrl : rest.length ≤ f := Nat.le_of_succ_le_succ hl
      simp only [sentMatchF]
      rcases hpc : isPunct c with _ | _
      · simp only [hpc, Bool.false_eq_true, if_false]
        rcases hr1 : (c :: rest).dropWhile (fun d => !isPunct d) with _ | ⟨e, es⟩
        · simp [hr1]
        · simp only [hr1, List.isEmpty_cons, Bool.false_eq_true, if_false]
          rcases hr2 : (e :: es).dropWhile isPunct with _ | ⟨d, ds⟩
          · simp [hr2]
          · simp only [hr2]
            rcases hd : jsIsSpace d with _ | _
            · simp only [hd, Bool.false_eq_true, if_false]
              exact ih rest hrl
            · simp only [hd, if_true]
              have hsplit1 :
                  (c :: rest).takeWhile (fun d => !isPunct d) ++ (e :: es) = c :: rest := by
                rw [← hr1]; exact List.takeWhile_append_dropWhile _ _
              have hsplit2 : (e :: es).takeWhile isPunct ++ (d :: ds) = e :: es := by
                rw [← hr2]; exact List.takeWhile_append_dropWhile _ _
              have hds : ds.length ≤ f := by
                have h1 := congrArg List.length hsplit1
                have h2 := congrArg List.length hsplit2
                simp only [List.length_append, List.length_cons] at h1 h2
                omega
              simp only [List.flatten_cons, List.map_cons]
              set np := (c :: rest).takeWhile (fun d => !isPunct d) with hnp
              set pr := (e :: es).takeWhile isPunct with hpr
              have hassoc : (np ++ pr ++ [d]) ++ (sentMatchF f ds).flatten =
                  (np ++ pr) ++ d :: (sentMatchF f ds).flatten := by
                simp [List.append_assoc]
              have hw : jsWords (np ++ pr ++ [d]) = jsWords (np ++ pr) := by
                rw [show np ++ pr ++ [d] = (np ++ pr) ++ [d] by simp [List.append_assoc]]
                exact jsWords_append_all_space (by simpa using hd) (np ++ pr)
              rw [hassoc, jsWords_append_space hd, hw, ih ds hds]
      · simp only [hpc, if_true]
        exact ih rest hrl

/-- `jsWords` of the flattened sentence candidates, as the flattened words
of the candidates (including the whole-text fallback case). -/
theorem jsWords_sentencesOf_flatten (text : List Char) :
    jsWords (sentencesOf text).flatten = ((sentencesOf text).map jsWords).flatten := by
  rw [sentencesOf]
  rcases h : (sentMatch text).isEmpty with _ | _
  · simp only [Bool.false_eq_true, if_false]
    exact jsWords_sentMatchF_flatten text.length text le_rfl
  · simp

theorem jsWords_nil : jsWords [] = [] := rfl

/-! ## Chunker lemmas -/

/-- The chunker's greedy accumulation loop loses and reorders no words:
whatever the grouping decisions, the words of the produced chunk contents
are the words of the current chunk followed by those of the remaining
sentences. -/
theorem chunkLoop_words (maxChars : ℕ) (sents : List (List Char)) :
    ∀ cur : List Char,
      ((chunkLoop maxChars sents cur).map jsWords).flatten =
        jsWords cur ++ (sents.map jsWords).flatten := by
  induction sents with
  | nil =>
    intro cur
    simp only [chunkLoop]
    rcases h : (trim cur).isEmpty with _ | _
    · simp only [Bool.false_eq_true, if_false, List.map_cons, List.map_nil,
        List.flatten_cons, List.flatten_nil, List.append_nil, List.map_nil, jsWords_trim]
    · have : jsWords cur = [] := by
        rw [← jsWords_trim, List.isEmpty_iff.mp h]; rfl
      simp [this]
  | cons s rest ih =>
    intro cur
    simp only [chunkLoop]
    rcases ht : (trim s).isEmpty with _ | _
    · simp only [Bool.false_eq_true, if_false]
      split
      · simp only [List.map_cons, List.flatten_cons, ih, jsWords_trim,
          List.append_assoc]
      · rcases hc : cur.isEmpty with _ | _
        · simp only [hc, Bool.false_eq_true, if_false, ih,
            jsWords_append_space (c := ' ') (by decide), List.map_cons,
            List.flatten_cons, jsWords_trim, List.append_assoc]
        · have : cur = [] := List.isEmpty_iff.mp hc
          subst this
          simp [ih, jsWords_trim, jsWords_nil]
    · have hs : jsWords s = [] := by
        rw [← jsWords_trim, List.isEmpty_iff.mp ht]; rfl
      simp [ih, hs]

/-- Reading back the contents of the two-pass index assignment. -/
theorem map_content_mapIdx (l : List (List Char)) (f : ℕ → List Char → TranscriptChunk)
    (hf : ∀ i c, (f i c).content = c) :
    (l.mapIdx f).map TranscriptChunk.content = l := by
  rw [List.mapIdx_eq_enum_map, List.map_map]
  have huf : (TranscriptChunk.content ∘ Function.uncurry f) =
      fun p : ℕ × List Char => p.2 := by
    funext p; exact hf p.1 p.2
  rw [huf, List.enum_map_snd]

/-- The chunk contents produced by `chunkTranscript`, as the accumulation
loop's output. -/
theorem chunkTranscript_contents (text : List Char) (maxTokens : Option ℕ) :
    (chunkTranscript text maxTokens).map TranscriptChunk.content =
      chunkLoop ((match maxTokens with
        | none => (estimateTranscript text).recommendedChunkSize
        | some m => if m = 0 then (estimateTranscript text).recommendedChunkSize else m) * 4)
        (sentencesOf text) [] := by
  simp only [chunkTranscript]
  exact map_content_mapIdx _ _ fun i c => rfl

/-! ## Re-chunker lemmas -/

/-- The re-chunker's grouping loop also loses and reorders no words. -/
theorem groupLoop_words (tOpt : Option ℕ) (sents : List (List Char)) :
    ∀ cur : List (List Char),
      ((groupLoop tOpt sents cur).map jsWords).flatten =
        (cur.map jsWords).flatten ++ (sents.map jsWords).flatten := by
  induction sents with
  | nil =>
    intro cur
    simp only [groupLoop]
    rcases h : cur.isEmpty with _ | _
    · simp [jsWords_joinSpace]
    · rw [List.isEmpty_iff.mp h]; simp
  | cons s rest ih =>
    intro cur
    simp only [groupLoop]
    split
    · simp [jsWords_joinSpace, ih, jsWords_trim, List.append_assoc]
    · simp [ih, jsWords_trim, List.append_assoc]

theorem groupLoop_ne_nil (tOpt : Option ℕ) (sents : List (List Char)) :
    ∀ cur : List (List Char), sents ≠ [] ∨ cur ≠ [] → groupLoop tOpt sents cur ≠ [] := by
  induction sents with
  | nil =>
    intro cur h
    have hc : cur ≠ [] := h.resolve_left fun h' => h' rfl
    simp only [groupLoop]
    rw [if_neg (by simpa using hc)]
    simp
  | cons s rest ih =>
    intro cur _
    simp only [groupLoop]
    split
    · simp
    · exact ih (cur ++ [trim s]) (Or.inr (by simp))

/-- With a reachable positive target strictly below the number of remaining
sentences, the grouping loop closes at least two groups. -/
theorem groupLoop_two (t : ℕ) (sents : List (List Char)) :
    ∀ cur : List (List Char), 1 ≤ t → cur.length < t → t < cur.length + sents.length →
      1 < (groupLoop (some t) sents cur).length := by
  induction sents with
  | nil =>
    intro cur _ h1 h2
    simp only [List.length_nil, Nat.add_zero] at h2
    omega
  | cons s rest ih =>
    intro cur ht h1 h2
    simp only [groupLoop]
    split
    · rename_i hle
      have hrest : rest ≠ [] := by
        simp only [List.length_append, List.length_singleton] at hle
        simp only [List.length_cons] at h2
        intro h
        subst h
        simp at h2
        omega
      have := groupLoop_ne_nil (some t) rest [] (Or.inl hrest)
      simp only [List.length_cons]
      have := List.length_pos.mpr this
      omega
    · rename_i hgt
      simp only [List.length_append, List.length_singleton, not_le] at hgt
      refine ih (cur ++ [trim s]) ht ?_ ?_
      · simpa using hgt
      · simp only [List.length_append, List.length_singleton, List.length_cons] at h2 ⊢
        omega

/-- A single sentence candidate always yields exactly one group. -/
theorem groupLoop_single (tOpt : Option ℕ) (s : List Char) :
    (groupLoop tOpt [s] []).length = 1 := by
  simp only [groupLoop]
  split <;> simp [groupLoop]

/-! ## Segment-timer lemmas -/

/-- The invariant of the segment-accumulation loop: the first produced
segment starts at the running start time, the last produced segment ends
exactly at `tot`, consecutive segments are exactly contiguous, and the
output is non-empty whenever the current segment is. -/
theorem segLoop_inv (cps tot : ℚ) (sents : List (List Char)) :
    ∀ (cur : List Char) (start : ℚ),
      (∀ s, (segLoop cps tot sents cur start).head? = some s → s.startTime = start) ∧
      (∀ s, (segLoop cps tot sents cur start).getLast? = some s → s.endTime = tot) ∧
      List.Chain' (fun p n => p.endTime = n.startTime) (segLoop cps tot sents cur start) ∧
      (cur ≠ [] → segLoop cps tot sents cur start ≠ []) := by
  induction sents with
  | nil =>
    intro cur start
    simp only [segLoop]
    rcases h : cur.isEmpty with _ | _
    · simp only [Bool.false_eq_true, if_false]
      refine ⟨?_, ?_, ?_, ?_⟩
      · intro s hs
        simp only [List.head?_cons, Option.some.injEq] at hs
        rw [← hs]
      · intro s hs
        simp only [List.getLast?_singleton, Option.some.injEq] at hs
        rw [← hs]
      · simp
      · simp
    · simp only [if_true]
      exact ⟨by simp, by simp, by simp, fun hc => absurd (List.isEmpty_iff.mp h) hc⟩
  | cons s rest ih =>
    intro cur start
    simp only [segLoop]
    rcases ht : (trim s).isEmpty with _ | _
    · simp only [Bool.false_eq_true, if_false]
      split
      · rename_i hsplit
        have htne : trim s ≠ [] := by simpa [List.isEmpty_iff] using ht
        have hne := (ih (trim s) (start + (cur.length : ℚ) / cps)).2.2.2 htne
        refine ⟨?_, ?_, ?_, ?_⟩
        · intro sg hsg
          simp only [List.head?_cons, Option.some.injEq] at hsg
          rw [← hsg]
        · intro sg hsg
          rcases hr : segLoop cps tot rest (trim s) (start + (cur.length : ℚ) / cps) with
            _ | ⟨x, xs⟩
          · exact absurd hr hne
          · rw [hr, List.getLast?_cons_cons] at hsg
            exact (ih (trim s) (start + (cur.length : ℚ) / cps)).2.1 sg (by rw [hr]; exact hsg)
        · rw [List.chain'_cons']
          refine ⟨?_, (ih (trim s) (start + (cur.length : ℚ) / cps)).2.2.1⟩
          intro y hy
          rw [(ih (trim s) (start + (cur.length : ℚ) / cps)).1 y (by simpa using hy)]
        · simp
      · have hcur : (if cur.isEmpty then trim s else cur ++ ' ' :: trim s) ≠ [] := by
          split
          · simpa [List.isEmpty_iff] using ht
          · simp
        refine ⟨(ih _ start).1, (ih _ start).2.1, (ih _ start).2.2.1,
          fun _ => (ih _ start).2.2.2 hcur⟩
    · exact ih cur start

/-- With a non-positive character rate the 5-second test never fires, so
the loop emits at most the single final segment `[start, tot]`. -/
theorem segLoop_no_split (cps tot : ℚ) (hcps : cps ≤ 0) (sents : List (List Char)) :
    ∀ (cur : List Char) (start : ℚ),
      segLoop cps tot sents cur start = [] ∨
        ∃ c, segLoop cps tot sents cur start = [⟨c, start, tot⟩] := by
  induction sents with
  | nil =>
    intro cur start
    simp only [segLoop]
    rcases h : cur.isEmpty with _ | _
    · exact Or.inr ⟨cur, by simp⟩
    · exact Or.inl (by simp)
  | cons s rest ih =>
    intro cur start
    simp only [segLoop]
    rcases ht : (trim s).isEmpty with _ | _
    · have h1 : (cur.length : ℚ) / cps ≤ 0 :=
        div_nonpos_iff.mpr (Or.inl ⟨Nat.cast_nonneg _, hcps⟩)
      have h2 : ((trim s).length : ℚ) / cps ≤ 0 :=
        div_nonpos_iff.mpr (Or.inl ⟨Nat.cast_nonneg _, hcps⟩)
      simp only [Bool.false_eq_true, if_false]
      rw [if_neg (by
        rintro ⟨-, hgt⟩
        have : (cur.length : ℚ) / cps + ((trim s).length : ℚ) / cps ≤ 0 := by linarith
        linarith)]
      exact ih _ start
    · exact ih cur start

/-! ## Size-estimator lemmas -/

theorem minutes_le_5 (n : ℕ) : ((n : ℚ) / 600 ≤ 5) ↔ n ≤ 3000 := by
  rw [div_le_iff₀ (show (0 : ℚ) < 600 by norm_num)]
  norm_cast

theorem minutes_le_15 (n : ℕ) : ((n : ℚ) / 600 ≤ 15) ↔ n ≤ 9000 := by
  rw [div_le_iff₀ (show (0 : ℚ) < 600 by norm_num)]
  norm_cast

theorem minutes_le_30 (n : ℕ) : ((n : ℚ) / 600 ≤ 30) ↔ n ≤ 18000 := by
  rw [div_le_iff₀ (show (0 : ℚ) < 600 by norm_num)]
  norm_cast

theorem minutes_le_60 (n : ℕ) : ((n : ℚ) / 600 ≤ 60) ↔ n ≤ 36000 := by
  rw [div_le_iff₀ (show (0 : ℚ) < 600 by norm_num)]
  norm_cast

theorem minutes_gt_15 (n : ℕ) : ((n : ℚ) / 600 > 15) ↔ 9000 < n := by
  rw [gt_iff_lt, lt_div_iff₀ (show (0 : ℚ) < 600 by norm_num)]
  norm_cast

/-- The estimator's bands, re-expressed over character counts (the rate is
600 characters per minute, so the 5/15/30/60-minute thresholds are the
3000/9000/18000/36000-character thresholds). -/
theorem estimateTranscript_eval (text : List Char) :
    estimateTranscript text =
      { isLongVideo := decide (9000 < text.length)
        estimatedDuration := jsRound ((text.length : ℚ) / 600)
        recommendedChunkSize :=
          if text.length ≤ 3000 then 3000
          else if text.length ≤ 9000 then 2500
          else if text.length ≤ 18000 then 2000
          else if text.length ≤ 36000 then 1500 else 1000
        warningMessage :=
          if text.length ≤ 9000 then none
          else if text.length ≤ 18000 then some warnLong
          else if text.length ≤ 36000 then some warnVeryLong
          else some warnExtreme } := by
  simp only [estimateTranscript, minutes_le_5, minutes_le_15, minutes_le_30, minutes_le_60,
    minutes_gt_15, apply_ite Prod.fst, apply_ite Prod.snd]
  simp only [TranscriptEstimates.mk.injEq]
  refine ⟨trivial, trivial, ?_, ?_⟩ <;>
    rcases le_or_lt text.length 3000 with h3 | h3 <;>
    rcases le_or_lt text.length 9000 with h9 | h9 <;>
    simp [h3, h9] <;> omega

/-! ## Claim C7 -/

/-- **C7**: `estimateTranscript` derives minutes as characters / 600 and maps
them to the fixed chunk-size bands (≤5 min → 3000, ≤15 → 2500, ≤30 → 2000
with the long-video warning, ≤60 → 1500 with the stronger warning, >60 →
1000 with the strongest warning; expressed below over the equivalent
character-count thresholds 3000/9000/18000/36000), `isLongVideo` holds
exactly when the estimated minutes exceed 15 (more than 9000 characters),
and on 2000 `'A'`s it reports `isLongVideo = false`,
`recommendedChunkSize = 3000` and no warning. -/
theorem C7_estimateTranscript_bands (text : List Char) :
    (estimateTranscript text).recommendedChunkSize =
      (if text.length ≤ 3000 then 3000
       else if text.length ≤ 9000 then 2500
       else if text.length ≤ 18000 then 2000
       else if text.length ≤ 36000 then 1500 else 1000) ∧
    (estimateTranscript text).isLongVideo = decide (9000 < text.length) ∧
    (estimateTranscript text).warningMessage =
      (if text.length ≤ 9000 then none
       else if text.length ≤ 18000 then some warnLong
       else if text.length ≤ 36000 then some warnVeryLong
       else some warnExtreme) ∧
    estimateTranscript (List.replicate 2000 'A') =
      { isLongVideo := false, estimatedDuration := 3, recommendedChunkSize := 3000
        warningMessage := none } := by
  refine ⟨by rw [estimateTranscript_eval], by rw [estimateTranscript_eval],
    by rw [estimateTranscript_eval], ?_⟩
  rw [estimateTranscript_eval]
  norm_num [jsRound]

/-! ## Claim C10 -/

/-- **C10**: because the source computes `maxTokens || recommendedChunkSize`,
an explicit `maxTokens` of `0` (falsy) silently falls back to the
estimator's recommendation: `chunkTranscript text 0` equals the
budget-omitted call, which equals the call at the recommended budget — a
caller cannot force a ceiling below the estimator's bands. -/
theorem C10_zero_budget_fallback (text : List Char) :
    chunkTranscript text (some 0) = chunkTranscript text none ∧
    chunkTranscript text (some 0) =
      chunkTranscript text (some (estimateTranscript text).recommendedChunkSize) := by
  constructor
  · simp [chunkTranscript]
  · simp only [chunkTranscript]
    rcases h : (estimateTranscript text).recommendedChunkSize with _ | m <;> simp [h]

/-! ## Claim C2 -/

/-- **C2** (counterexample): the sentence regex drops characters when a
punctuation run is followed directly by a non-whitespace character, so on
the input `"a.b"` the chunker returns the single chunk `"b"` and the
space-joined chunk content does not reproduce the input up to whitespace
normalization (the characters `a.` are lost). -/
theorem C2_counterexample :
    (chunkTranscript "a.b".toList none).map TranscriptChunk.content = ["b".toList] ∧
    jsWords (joinSpace ((chunkTranscript "a.b".toList none).map TranscriptChunk.content)) ≠
      jsWords "a.b".toList := by
  have hrec : (estimateTranscript "a.b".toList).recommendedChunkSize = 3000 := by
    rw [estimateTranscript_eval]
    decide
  have h : (chunkTranscript "a.b".toList none).map TranscriptChunk.content = ["b".toList] := by
    rw [chunkTranscript_contents]
    show chunkLoop ((estimateTranscript "a.b".toList).recommendedChunkSize * 4)
      (sentencesOf "a.b".toList) [] = ["b".toList]
    rw [hrec]
    decide
  exact ⟨h, by rw [h]; decide⟩

/-- **C2** (amended): for every input text whose sentence tokenization
covers the whole input (the regex's matches concatenate back to the text —
which fails e.g. when boundary punctuation is followed directly by a
non-whitespace character), and for any token budget, joining the chunks'
contents with single spaces reproduces the input up to whitespace
normalization (same `jsWords`). -/
theorem C2_amended (text : List Char) (maxTokens : Option ℕ) (hne : text ≠ [])
    (hcov : (sentencesOf text).flatten = text) :
    jsWords (joinSpace ((chunkTranscript text maxTokens).map TranscriptChunk.content)) =
      jsWords text := by
  rw [chunkTranscript_contents, jsWords_joinSpace, chunkLoop_words, jsWords_nil,
    List.nil_append, ← jsWords_sentencesOf_flatten, hcov]

theorem C2_amended_witness :
    "Aa. Bb.".toList ≠ [] ∧ (sentencesOf "Aa. Bb.".toList).flatten = "Aa. Bb.".toList ∧
    jsWords (joinSpace ((chunkTranscript "Aa. Bb.".toList none).map TranscriptChunk.content)) =
      jsWords "Aa. Bb.".toList :=
  ⟨by decide, by decide, C2_amended "Aa. Bb.".toList none (by decide) (by decide)⟩

/-! ## Claim C9 -/

/-- **C9** (counterexample): the claim fails as stated, in both universally
quantified parts. With factor 1 a two-sentence chunk is *not* split into
more than one chunk (the target group size `ceil(2/1) = 2` keeps both
sentences together), and on content the sentence regex does not cover
(`"a.b"`), the space-joined output content differs from the chunk's content
up to whitespace normalization. -/
theorem C9_counterexample :
    (rechunkOnError ⟨1, 1, "Aa. Bb.".toList, 1⟩ 1).length = 1 ∧
    jsWords (joinSpace
        ((rechunkOnError ⟨1, 1, "a.b".toList, 1⟩ 2).map TranscriptChunk.content)) ≠
      jsWords "a.b".toList := by
  constructor <;> decide

/-- **C9** (amended): for factor ≥ 2 (the source's only call uses the
default factor 2), a chunk with at least two sentence candidates re-chunks
into strictly more than one chunk; single-sentence content degrades to
exactly one chunk (any factor); and whenever the sentence tokenization
covers the chunk's content, the space-joined output content equals the
input content up to whitespace normalization (same `jsWords`). -/
theorem C9_amended (c : TranscriptChunk) (factor : ℕ) :
    (2 ≤ factor → 2 ≤ (sentencesOf c.content).length →
      1 < (rechunkOnError c factor).length) ∧
    ((sentencesOf c.content).length = 1 → (rechunkOnError c factor).length = 1) ∧
    ((sentencesOf c.content).flatten = c.content →
      jsWords (joinSpace ((rechunkOnError c factor).map TranscriptChunk.content)) =
        jsWords c.content) := by
  refine ⟨?_, ?_, ?_⟩
  · intro hf hn
    have hf0 : factor ≠ 0 := by omega
    simp only [rechunkOnError, if_neg hf0, List.length_mapIdx]
    obtain ⟨n, hn'⟩ : ∃ n, (sentencesOf c.content).length = n := ⟨_, rfl⟩
    rw [hn'] at hn
    have ht1 : 1 ≤ (n + factor - 1) / factor := by
      rw [Nat.le_div_iff_mul_le (by omega)]
      omega
    have ht2 : (n + factor - 1) / factor < n := by
      rw [Nat.div_lt_iff_lt_mul (by omega)]
      obtain ⟨a, rfl⟩ : ∃ a, n = a + 2 := ⟨n - 2, by omega⟩
      obtain ⟨b, rfl⟩ : ∃ b, factor = b + 2 := ⟨factor - 2, by omega⟩
      have hexp : (a + 2) * (b + 2) = a * b + 2 * a + 2 * b + 4 := by ring
      rw [hexp]
      generalize a * b = k
      omega
    rw [hn']
    exact groupLoop_two _ _ [] ht1 (by simpa using ht1) (by simpa [hn'] using ht2)
  · intro h1
    obtain ⟨s, hs⟩ := List.length_eq_one.mp h1
    simp only [rechunkOnError, hs, List.length_mapIdx]
    exact groupLoop_single _ s
  · intro hcov
    simp only [rechunkOnError]
    rw [map_content_mapIdx _ _ fun i cc => rfl, jsWords_joinSpace, groupLoop_words]
    simp only [List.map_nil, List.flatten_nil, List.nil_append]
    rw [← jsWords_sentencesOf_flatten, hcov]

theorem C9_amended_witness :
    1 < (rechunkOnError ⟨1, 1, "Aa. Bb.".toList, 1⟩ 2).length ∧
    (rechunkOnError ⟨1, 1, "Hello.".toList, 1⟩ 3).length = 1 ∧
    jsWords (joinSpace
        ((rechunkOnError ⟨1, 1, "Aa. Bb.".toList, 1⟩ 2).map TranscriptChunk.content)) =
      jsWords "Aa. Bb.".toList :=
  ⟨(C9_amended ⟨1, 1, "Aa. Bb.".toList, 1⟩ 2).1 (by decide) (by decide),
   (C9_amended ⟨1, 1, "Hello.".toList, 1⟩ 3).2.1 (by decide),
   (C9_amended ⟨1, 1, "Aa. Bb.".toList, 1⟩ 2).2.2 (by decide)⟩

/-! ## Claim C1 -/

/-- **C1**: for every text and positive total duration, the segment
sequence returned by `splitIntoSRTSegments` starts at time 0 (its first
segment's `startTime` is 0), ends exactly at `totalDuration` (its last
segment's `endTime`), and adjacent segments never overlap: each next
segment starts no earlier than the previous one ends (in the exact-
arithmetic embedding they are exactly contiguous, so the claim's epsilon
is not even needed). -/
theorem C1_segment_timing (text : List Char) (totalDuration : ℚ)
    (hd : 0 < totalDuration) :
    (∀ s, (splitIntoSRTSegments text totalDuration).head? = some s → s.startTime = 0) ∧
    (∀ s, (splitIntoSRTSegments text totalDuration).getLast? = some s →
      s.endTime = totalDuration) ∧
    List.Chain' (fun p n => p.endTime ≤ n.startTime)
      (splitIntoSRTSegments text totalDuration) := by
  obtain ⟨h1, h2, h3, -⟩ :=
    segLoop_inv ((text.length : ℚ) / totalDuration) totalDuration (sentencesOf text) [] 0
  exact ⟨h1, h2, List.Chain'.imp (fun a b hab => le_of_eq hab) h3⟩

theorem C1_segment_timing_witness :
    splitIntoSRTSegments "Hi.".toList 10 = [⟨"Hi.".toList, 0, 10⟩] ∧
    (∀ s, (splitIntoSRTSegments "Hi.".toList 10).head? = some s → s.startTime = 0) ∧
    (∀ s, (splitIntoSRTSegments "Hi.".toList 10).getLast? = some s → s.endTime = 10) ∧
    List.Chain' (fun p n => p.endTime ≤ n.startTime) (splitIntoSRTSegments "Hi.".toList 10) :=
  ⟨by decide, C1_segment_timing "Hi.".toList 10 (by norm_num)⟩

/-! ## Claim C8 -/

/-- **C8** (counterexample): a zero `totalDuration` is *not* fatal and
signals nothing: JavaScript division by zero yields `Infinity`, every
per-sentence duration becomes `0`, the 5-second test stays false, and
`splitIntoSRTSegments` returns a perfectly normal segment sequence — here
the single segment `⟨"Hi.", 0, 0⟩` — instead of failing with a
DivideByZero-class error. -/
theorem C8_counterexample :
    splitIntoSRTSegments "Hi.".toList 0 = [⟨"Hi.".toList, 0, 0⟩] := by decide

/-- **C8** (amended): a zero or negative `totalDuration` is not detected:
no error is signalled, and the Segment Timer degrades to at most one
segment spanning `[0, totalDuration]` (the rate is then non-positive, the
5-second test never fires, and the whole text accumulates into the final
forced segment). -/
theorem C8_amended (text : List Char) (totalDuration : ℚ) (hd : totalDuration ≤ 0) :
    splitIntoSRTSegments text totalDuration = [] ∨
      ∃ c, splitIntoSRTSegments text totalDuration = [⟨c, 0, totalDuration⟩] := by
  have hcps : (text.length : ℚ) / totalDuration ≤ 0 := by
    rcases eq_or_lt_of_le hd with h | h
    · rw [h, div_zero]
    · exact div_nonpos_iff.mpr (Or.inl ⟨Nat.cast_nonneg _, hd⟩)
  exact segLoop_no_split _ totalDuration hcps (sentencesOf text) [] 0

theorem C8_amended_witness :
    splitIntoSRTSegments "Hi.".toList (-2) = [] ∨
      ∃ c, splitIntoSRTSegments "Hi.".toList (-2) = [⟨c, 0, -2⟩] :=
  C8_amended "Hi.".toList (-2) (by norm_num)

/-! ## Claim C5 -/

theorem jsMod_one (q : ℚ) (h0 : 0 ≤ q) : jsMod q 1 = q - (⌊q⌋ : ℚ) := by
  rw [jsMod, jsTrunc, div_one, if_pos h0]
  push_cast
  ring

/-- Below one minute the hour and minute fields are zero and the remainders
collapse, leaving the floored seconds and the floored milliseconds of the
fractional part. -/
theorem formatTime_lt60 (q : ℚ) (h0 : 0 ≤ q) (h60 : q < 60) :
    formatTime q =
      padStart (toString (0 : ℤ)) 2 '0' ++ ":" ++ padStart (toString (0 : ℤ)) 2 '0' ++ ":" ++
        padStart (toString ⌊q⌋) 2 '0' ++ "," ++
        padStart (toString ⌊(q - (⌊q⌋ : ℚ)) * 1000⌋) 3 '0' := by
  have hq3600 : (0 : ℚ) ≤ q / 3600 := by positivity
  have e1 : ⌊q / 3600⌋ = 0 := by
    rw [Int.floor_eq_zero_iff, Set.mem_Ico]
    exact ⟨hq3600, (div_lt_one (by norm_num)).mpr (by linarith)⟩
  have hmod3600 : jsMod q 3600 = q := by
    rw [jsMod, jsTrunc, if_pos hq3600, e1]
    push_cast
    ring
  have hq60 : (0 : ℚ) ≤ q / 60 := by positivity
  have e2 : ⌊q / 60⌋ = 0 := by
    rw [Int.floor_eq_zero_iff, Set.mem_Ico]
    exact ⟨hq60, (div_lt_one (by norm_num)).mpr (by linarith)⟩
  have hmod60 : jsMod q 60 = q := by
    rw [jsMod, jsTrunc, if_pos hq60, e2]
    push_cast
    ring
  simp only [formatTime, hmod3600, hmod60, jsMod_one q h0, e1, e2]

/-- **C5**: `generateSRT` renders timestamps as `HH:MM:SS,mmm` with
zero-padded fields, a comma before the milliseconds, and the milliseconds
*floored*: the rendered millisecond integer is `⌊fract(t) * 1000⌋`, which
never rounds up (the last conjuncts bound it by the exact fractional value
from below within distance 1, inside `[0, 1000)`). In particular the
single segment `{content: "Test", startTime: 1.234, endTime: 2.567}`
renders exactly as `1\n00:00:01,234 --> 00:00:02,567\nTest\n` (never
`,235`), and `2.9996` seconds render as `00:00:02,999`, not `03,000`. -/
theorem C5_generateSRT_format (q : ℚ) (hq : 0 ≤ q) :
    generateSRT [⟨"Test".toList, 1234 / 1000, 2567 / 1000⟩] =
      "1\n00:00:01,234 --> 00:00:02,567\nTest\n" ∧
    formatTime (29996 / 10000) = "00:00:02,999" ∧
    0 ≤ ⌊jsMod q 1 * 1000⌋ ∧ ⌊jsMod q 1 * 1000⌋ < 1000 ∧
    (⌊jsMod q 1 * 1000⌋ : ℚ) ≤ jsMod q 1 * 1000 ∧
    jsMod q 1 * 1000 < (⌊jsMod q 1 * 1000⌋ : ℚ) + 1 := by
  have hfr0 : 0 ≤ jsMod q 1 := by
    rw [jsMod_one q hq]
    have := Int.floor_le q
    linarith
  have hfr1 : jsMod q 1 < 1 := by
    rw [jsMod_one q hq]
    have := Int.lt_floor_add_one q
    linarith
  have hA : formatTime (1234 / 1000 : ℚ) = "00:00:01,234" := by
    rw [formatTime_lt60 _ (by norm_num) (by norm_num)]
    norm_num
    decide
  have hB : formatTime (2567 / 1000 : ℚ) = "00:00:02,567" := by
    rw [formatTime_lt60 _ (by norm_num) (by norm_num)]
    norm_num
    decide
  refine ⟨?_, ?_, ?_, ?_, Int.floor_le _, Int.lt_floor_add_one _⟩
  · rw [show generateSRT [⟨"Test".toList, 1234 / 1000, 2567 / 1000⟩] =
      "1\n" ++ formatTime (1234 / 1000 : ℚ) ++ " --> " ++ formatTime (2567 / 1000 : ℚ) ++
        "\n" ++ String.mk "Test".toList ++ "\n" from rfl, hA, hB]
    decide
  · rw [formatTime_lt60 _ (by norm_num) (by norm_num)]
    norm_num
    decide
  · exact Int.floor_nonneg.mpr (by positivity)
  · rw [Int.floor_lt]
    push_cast
    nlinarith

theorem C5_generateSRT_format_witness :
    generateSRT [⟨"Test".toList, 1234 / 1000, 2567 / 1000⟩] =
      "1\n00:00:01,234 --> 00:00:02,567\nTest\n" ∧
    formatTime (29996 / 10000) = "00:00:02,999" ∧
    0 ≤ ⌊jsMod (1234 / 1000 : ℚ) 1 * 1000⌋ ∧ ⌊jsMod (1234 / 1000 : ℚ) 1 * 1000⌋ < 1000 ∧
    (⌊jsMod (1234 / 1000 : ℚ) 1 * 1000⌋ : ℚ) ≤ jsMod (1234 / 1000 : ℚ) 1 * 1000 ∧
    jsMod (1234 / 1000 : ℚ) 1 * 1000 < (⌊jsMod (1234 / 1000 : ℚ) 1 * 1000⌋ : ℚ) + 1 :=
  C5_generateSRT_format (1234 / 1000) (by norm_num)

/-! ## Claim C4 -/

/-- Unfolding one attempt of `callOpenAI` (the fuel `4 - retryCount` is
positive while `retryCount ≤ 3`, and the recursive call's fuel coincides
with `callOpenAI` at `retryCount + 1`). -/
theorem callOpenAI_step (oracle : ℕ → FetchResult) (j : ℕ) (hj : j ≤ 3) :
    callOpenAI oracle j =
      match oracle j with
      | .ok content => ⟨.success content, 0, []⟩
      | .httpErr status message code =>
        let errorMessage := if message.isEmpty then defaultErrMsg else message
        if status = 429 ∧ j < maxRetries then
          let r := callOpenAI oracle (j + 1)
          ⟨r.result, r.retried + 1, baseDelay * 2 ^ j :: r.delays⟩
        else
          let thrownMsg := if code = some contextLengthCode then tokenLimitMsg else errorMessage
          if shouldCatchRetry j thrownMsg then
            let r := callOpenAI oracle (j + 1)
            ⟨r.result, r.retried + 1, baseDelay * 2 ^ j :: r.delays⟩
          else ⟨.failure thrownMsg, 0, []⟩
      | .thrown message =>
        if shouldCatchRetry j message then
          let r := callOpenAI oracle (j + 1)
          ⟨r.result, r.retried + 1, baseDelay * 2 ^ j :: r.delays⟩
        else ⟨.failure message, 0, []⟩ := by
  have h4 : 4 - j = (4 - (j + 1)) + 1 := by omega
  rw [callOpenAI, h4]
  rfl

/-- An oracle that rate-limits the first `k` attempts and then succeeds. -/
def rlThenOk (k : ℕ) (msg content : List Char) : ℕ → FetchResult := fun n =>
  if n < k then .httpErr 429 msg none else .ok content

theorem callOpenAI_rl_ok (msg content : List Char) (k : ℕ) (hk : k ≤ 3) :
    ∀ d j, j + d = k →
      callOpenAI (rlThenOk k msg content) j =
        ⟨.success content, d, (List.range' j d).map fun i => baseDelay * 2 ^ i⟩ := by
  intro d
  induction d with
  | zero =>
    intro j hj
    rw [callOpenAI_step _ j (by omega)]
    have ho : rlThenOk k msg content j = .ok content := by
      rw [rlThenOk, if_neg (by omega)]
    rw [ho]
    rfl
  | succ d ih =>
    intro j hj
    rw [callOpenAI_step _ j (by omega)]
    have ho : rlThenOk k msg content j = .httpErr 429 msg none := by
      rw [rlThenOk, if_pos (by omega)]
    rw [ho]
    simp only [maxRetries]
    rw [if_pos (show True ∧ j < 3 from ⟨trivial, by omega⟩), ih (j + 1) (by omega)]
    rfl

theorem callOpenAI_rl_exhaust (msg : List Char) :
    ∀ d j, j + d = 3 →
      callOpenAI (fun _ => FetchResult.httpErr 429 msg none) j =
        ⟨.failure (if msg.isEmpty then defaultErrMsg else msg), d,
          (List.range' j d).map fun i => baseDelay * 2 ^ i⟩ := by
  intro d
  induction d with
  | zero =>
    intro j hj
    have hj3 : j = 3 := by omega
    subst hj3
    rw [callOpenAI_step _ 3 (by omega)]
    dsimp only
    have hscr : ∀ m, shouldCatchRetry 3 m = false := fun m => by
      simp [shouldCatchRetry, maxRetries]
    rw [if_neg (show ¬((429 : ℕ) = 429 ∧ 3 < maxRetries) by simp [maxRetries])]
    simp only [hscr, Bool.false_eq_true, if_false]
    rw [if_neg (show ¬((none : Option (List Char)) = some contextLengthCode) by simp)]
    rfl
  | succ d ih =>
    intro j hj
    rw [callOpenAI_step _ j (by omega)]
    dsimp only
    simp only [maxRetries]
    rw [if_pos (show True ∧ j < 3 from ⟨trivial, by omega⟩), ih (j + 1) (by omega)]
    rfl

/-- **C4** (counterexample): a chunk whose call is rate-limited twice and
then succeeds raises the retried-chunks counter by 2, not by 1 — the
source increments the counter on *every* retry attempt
(`this.stats.retriedChunks++` before each recursive call), not once per
chunk as claimed. -/
theorem C4_counterexample :
    callOpenAI (rlThenOk 2 "Rate limit reached".toList "Bonjour".toList) 0 =
      ⟨.success "Bonjour".toList, 2, [1000, 2000]⟩ ∧
    (callOpenAI (rlThenOk 2 "Rate limit reached".toList "Bonjour".toList) 0).retried ≠ 1 := by
  constructor <;> decide

/-- **C4** (amended): a rate-limit (HTTP 429) response is retried up to 3
times with exponentially doubling backoff (`1000 * 2 ^ attempt`
milliseconds: 1000, 2000, 4000) before giving up, and the retried-chunks
counter is incremented once per retry *attempt* — a chunk rate-limited `k`
times before succeeding raises the counter by `k` (not by 1), and a chunk
that exhausts all retries raises it by 3 and fails with the provider's
message. -/
theorem C4_amended (msg content : List Char) (k : ℕ) (hk : k ≤ 3) :
    callOpenAI (rlThenOk k msg content) 0 =
      ⟨.success content, k, (List.range k).map fun i => baseDelay * 2 ^ i⟩ ∧
    callOpenAI (fun _ => FetchResult.httpErr 429 msg none) 0 =
      ⟨.failure (if msg.isEmpty then defaultErrMsg else msg), 3, [1000, 2000, 4000]⟩ := by
  constructor
  · have h := callOpenAI_rl_ok msg content k hk k 0 (by omega)
    rw [h, List.range_eq_range']
  · have h := callOpenAI_rl_exhaust msg 3 0 (by omega)
    rw [h]
    rfl

theorem C4_amended_witness :
    callOpenAI (rlThenOk 2 "Rate limited".toList "Salut".toList) 0 =
      ⟨.success "Salut".toList, 2, (List.range 2).map fun i => baseDelay * 2 ^ i⟩ ∧
    callOpenAI (fun _ => FetchResult.httpErr 429 "Rate limited".toList none) 0 =
      ⟨.failure (if "Rate limited".toList.isEmpty then defaultErrMsg
        else "Rate limited".toList), 3, [1000, 2000, 4000]⟩ :=
  C4_amended "Rate limited".toList "Salut".toList 2 (by norm_num)

/-! ## Claim C3 -/

/-- An oracle on which the two-sentence parent chunk hits the size limit,
its first sub-chunk succeeds with an *empty* translation and its second
fails permanently. -/
def c3oracle : List Char → ℕ → FetchResult := fun content _ =>
  if content = "Aa. Bb.".toList then .httpErr 400 "too long".toList (some contextLengthCode)
  else if content = "Aa.".toList then .ok []
  else .httpErr 401 "Invalid API key".toList none

/-- **C3** (counterexample): on `c3oracle` the parent chunk `"Aa. Bb."`
hits the size limit and is re-chunked into `"Aa."` and `"Bb."`; the
sub-chunk `"Aa."` *succeeds* (with the empty translation, which the
JavaScript truthiness test `result.success && result.translation` then
discards), yet the parent is marked failed — contradicting the claim that
the parent fails only when *zero* sub-chunks succeed and otherwise carries
the space-joined successful outputs. -/
theorem C3_counterexample :
    translateChunk c3oracle 1 ⟨"Aa. Bb.".toList, 1, 1⟩ =
      some ⟨⟨1, false, none, some tokenLimitMsg⟩, 0⟩ ∧
    (rechunkOnError ⟨1, 1, "Aa. Bb.".toList, 0⟩ 2).map TranscriptChunk.content =
      ["Aa.".toList, "Bb.".toList] ∧
    translateChunk c3oracle 0 ⟨"Aa.".toList, 1, 2⟩ =
      some ⟨⟨1, true, some [], none⟩, 0⟩ := by
  refine ⟨by decide, by decide, by decide⟩

/-- **C3** (amended): when the translation call for a chunk fails with the
distinguished size-limit error, the chunk is re-chunked with factor 2 and
every resulting smaller chunk is translated through the same chunk-level
procedure; provided those sub-translations resolve, the parent chunk
succeeds with the space-joined concatenation of the successful sub-chunks'
*non-empty* (truthy) outputs, and is marked failed when no sub-chunk
yields a successful non-empty output. -/
theorem C3_amended (oracle : List Char → ℕ → FetchResult) (fuel : ℕ) (chunk : ChunkIn)
    (subOuts : List (Option TCOut)) (results : List (List Char))
    (hlim : (callOpenAI (oracle chunk.content) 0).result = .failure tokenLimitMsg)
    (hterm : ∀ sc ∈ rechunkOnError ⟨chunk.index, chunk.total, chunk.content, 0⟩ 2,
      (translateChunk oracle fuel ⟨sc.content, sc.index, sc.total⟩).isSome = true) :
    ((rechunkOnError ⟨chunk.index, chunk.total, chunk.content, 0⟩ 2).map fun sc =>
        translateChunk oracle fuel ⟨sc.content, sc.index, sc.total⟩) = subOuts →
    subOuts.reduceOption.filterMap
        (fun r => if succOk r then r.res.translation else none) = results →
    (results ≠ [] → translateChunk oracle (fuel + 1) chunk =
      some ⟨⟨chunk.index, true, some (joinSpace results), none⟩,
        (callOpenAI (oracle chunk.content) 0).retried +
          (subOuts.reduceOption.map TCOut.retried).sum⟩) ∧
    (results = [] → translateChunk oracle (fuel + 1) chunk =
      some ⟨⟨chunk.index, false, none, some tokenLimitMsg⟩,
        (callOpenAI (oracle chunk.content) 0).retried +
          (subOuts.reduceOption.map TCOut.retried).sum⟩) := by
  intro hsub hres
  have hall : ((rechunkOnError ⟨chunk.index, chunk.total, chunk.content, 0⟩ 2).map fun sc =>
      translateChunk oracle fuel ⟨sc.content, sc.index, sc.total⟩).all Option.isSome = true := by
    rw [List.all_eq_true]
    intro x hx
    obtain ⟨sc, hsc, rfl⟩ := List.mem_map.mp hx
    exact hterm sc hsc
  constructor
  · intro hne
    rw [translateChunk]
    simp only [hlim]
    rw [if_pos trivial, if_pos hall, if_neg (by
      rw [hsub, hres]
      simpa [List.isEmpty_iff] using hne)]
    rw [hsub, hres]
  · intro hemp
    rw [translateChunk]
    simp only [hlim]
    rw [if_pos trivial, if_pos hall, if_pos (by rw [hsub, hres, hemp]; rfl)]
    rw [hsub]

/-- An oracle on which the parent hits the size limit and both sub-chunks
translate successfully. -/
def c3okOracle : List Char → ℕ → FetchResult := fun content _ =>
  if content = "Aa. Bb.".toList then .httpErr 400 "too long".toList (some contextLengthCode)
  else if content = "Aa.".toList then .ok "Un.".toList
  else .ok "Deux.".toList

theorem C3_amended_witness :
    translateChunk c3okOracle 1 ⟨"Aa. Bb.".toList, 1, 1⟩ =
      some ⟨⟨1, true, some "Un. Deux.".toList, none⟩, 0⟩ := by
  have h := (C3_amended c3okOracle 0 ⟨"Aa. Bb.".toList, 1, 1⟩ _ _ (by decide) (by decide)
    rfl rfl).1 (by decide)
  rw [h]
  decide

/-! ## Claim C6 -/

theorem reduceOption_length_of_all_isSome {α : Type} (l : List (Option α))
    (h : l.all Option.isSome = true) : l.reduceOption.length = l.length := by
  induction l with
  | nil => rfl
  | cons a rest ih =>
    rcases a with _ | x
    · simp at h
    · simp only [List.all_cons, Bool.and_eq_true] at h
      simp [List.reduceOption_cons_of_some, ih h.2]

theorem length_filter_split {α : Type} (l : List α) (p : α → Bool) :
    (l.filter p).length + (l.filter fun a => !p a).length = l.length := by
  induction l with
  | nil => rfl
  | cons a rest ih =>
    rcases h : p a with _ | _ <;> simp [List.filter_cons, h, ← ih] <;> omega

/-- `translateChunk` never resolves on this oracle and chunk, at any
re-chunk depth: the source loops forever issuing external calls. -/
def translateChunkDiverges (oracle : List Char → ℕ → FetchResult) (chunk : ChunkIn) : Prop :=
  ∀ fuel, translateChunk oracle fuel chunk = none

/-- The whole `translateChunks` run never completes, at any depth. -/
def translateChunksDiverges (oracle : List Char → ℕ → FetchResult)
    (chunks : List PChunk) : Prop :=
  ∀ fuel, translateChunks oracle fuel chunks = none

/-- A provider that reports the size-limit condition on every call. -/
def alwaysTokenLimit : List Char → ℕ → FetchResult := fun _ _ =>
  .httpErr 400 "too long".toList (some contextLengthCode)

/-- **C6** (counterexample): a single-sentence chunk whose calls always
return the size-limit error re-chunks to itself, so the re-chunk recursion
never terminates — `translateChunk` resolves at no depth, and the whole
`translateChunks` run never completes, contradicting "the run continues to
completion returning a subtitle string plus stats" for every permanent
chunk failure. -/
theorem C6_counterexample :
    translateChunkDiverges alwaysTokenLimit ⟨"Hello.".toList, 1, 1⟩ ∧
    translateChunksDiverges alwaysTokenLimit [⟨"Hello.".toList, 1, 1, 1⟩] := by
  have hdiv : ∀ fuel, translateChunk alwaysTokenLimit fuel ⟨"Hello.".toList, 1, 1⟩ = none := by
    intro fuel
    induction fuel with
    | zero => decide
    | succ n ih =>
      have ih' : translateChunk alwaysTokenLimit n
          ⟨['H', 'e', 'l', 'l', 'o', '.'], 1, 1⟩ = none := ih
      rw [translateChunk]
      dsimp only
      have hcall : (callOpenAI (alwaysTokenLimit "Hello.".toList) 0).result =
          CallResult.failure tokenLimitMsg := by decide
      have hre : rechunkOnError ⟨1, 1, "Hello.".toList, 0⟩ 2 =
          [⟨1, 1, "Hello.".toList, 1⟩] := by decide
      simp only [hcall, hre]
      simp [ih, ih']
  refine ⟨hdiv, fun fuel => ?_⟩
  have hdiv' : translateChunk alwaysTokenLimit fuel
      ⟨['H', 'e', 'l', 'l', 'o', '.'], 1, 1⟩ = none := hdiv fuel
  simp only [translateChunks, translateOne, List.map_cons, List.map_nil]
  simp [hdiv fuel, hdiv']

/-- **C6** (amended): provided every chunk's translation resolves (the
size-limit re-chunk recursion terminates — see the counterexample for the
divergent case the source admits), `translateChunks` absorbs every
chunk-level failure and completes: it returns an SRT string plus stats
whose total is the chunk count and whose successful and failed counts
partition it, and every failed chunk's slot carries the non-empty,
at-most-125-character placeholder `[Translation failed: <first 100
characters of the source text>...]` at the chunk's index and duration —
downstream timing never sees an empty slot. -/
theorem C6_amended (oracle : List Char → ℕ → FetchResult) (fuel : ℕ) (chunks : List PChunk)
    (hterm : ∀ c ∈ chunks, (translateOne oracle fuel c).isSome = true) :
    (∃ srt stats, translateChunks oracle fuel chunks = some (srt, stats) ∧
      stats.totalChunks = chunks.length ∧
      stats.successfulChunks + stats.failedChunks = chunks.length) ∧
    (∀ c ∈ chunks, ∀ slot ok retried,
      translateOne oracle fuel c = some (slot, ok, retried) →
      slot.content ≠ [] ∧
      (ok = false → slot.content =
        "[Translation failed: ".toList ++ c.content.take 100 ++ "...]".toList ∧
        slot.content.length ≤ 125 ∧ slot.index = c.index ∧
        slot.duration = c.estimatedDuration)) := by
  have hall : (chunks.map (translateOne oracle fuel)).all Option.isSome = true := by
    rw [List.all_eq_true]
    intro x hx
    obtain ⟨c, hc, rfl⟩ := List.mem_map.mp hx
    exact hterm c hc
  constructor
  · refine ⟨generateSRT (timeLoop (sortByIndex
        ((chunks.map (translateOne oracle fuel)).reduceOption.map fun r => r.1)) 0),
      ⟨chunks.length,
        ((chunks.map (translateOne oracle fuel)).reduceOption.filter fun r => r.2.1).length,
        ((chunks.map (translateOne oracle fuel)).reduceOption.filter fun r => !r.2.1).length,
        ((chunks.map (translateOne oracle fuel)).reduceOption.map fun r => r.2.2).sum,
        false⟩, ?_, rfl, ?_⟩
    · simp only [translateChunks]
      rw [if_pos hall]
    · have hlen : (chunks.map (translateOne oracle fuel)).reduceOption.length =
          chunks.length := by
        rw [reduceOption_length_of_all_isSome _ hall, List.length_map]
      rw [show ((chunks.map (translateOne oracle fuel)).reduceOption.filter
          fun r => r.2.1).length +
          ((chunks.map (translateOne oracle fuel)).reduceOption.filter
            fun r => !r.2.1).length =
          (chunks.map (translateOne oracle fuel)).reduceOption.length from
        length_filter_split _ _, hlen]
  · intro c hc slot ok retried htr
    rw [translateOne] at htr
    obtain ⟨out, hout, heq⟩ := Option.map_eq_some'.mp htr
    obtain ⟨hs, hok, hr⟩ : slotOf c out = slot ∧ succOk out = ok ∧ out.retried = retried := by
      simpa [Prod.ext_iff] using heq
    subst hs hok hr
    constructor
    · rw [slotOf]
      split
      · rename_i hsucc
        simp only [succOk, Bool.and_eq_true] at hsucc
        intro hnil
        have hc : out.res.translation.getD [] = [] := hnil
        rw [hc] at hsucc
        simp at hsucc
      · simp [placeholderContent]
    · intro hok'
      rw [slotOf, if_neg (by simp [hok'])]
      have h21 : ("[Translation failed: ".toList).length = 21 := by decide
      have h4 : ("...]".toList).length = 4 := by decide
      refine ⟨rfl, ?_, rfl, rfl⟩
      show (placeholderContent c.content).length ≤ 125
      simp only [placeholderContent, List.length_append, h21, h4]
      have := List.length_take_le 100 c.content
      omega

/-- An oracle giving one successful and one permanently failing chunk. -/
def c6okOracle : List Char → ℕ → FetchResult := fun content _ =>
  if content = "Hi.".toList then .ok "Salut.".toList
  else .httpErr 401 "Invalid API key".toList none

theorem C6_amended_witness :
    (∃ srt stats,
      translateChunks c6okOracle 0 [⟨"Hi.".toList, 1, 2, 1⟩, ⟨"Bad.".toList, 2, 2, 1⟩] =
        some (srt, stats) ∧
      stats.totalChunks = 2 ∧ stats.successfulChunks + stats.failedChunks = 2) ∧
    (∀ c ∈ [(⟨"Hi.".toList, 1, 2, 1⟩ : PChunk), ⟨"Bad.".toList, 2, 2, 1⟩],
      ∀ slot ok retried, translateOne c6okOracle 0 c = some (slot, ok, retried) →
      slot.content ≠ [] ∧
      (ok = false → slot.content =
        "[Translation failed: ".toList ++ c.content.take 100 ++ "...]".toList ∧
        slot.content.length ≤ 125 ∧ slot.index = c.index ∧
        slot.duration = c.estimatedDuration)) := by
  have h := C6_amended c6okOracle 0 [⟨"Hi.".toList, 1, 2, 1⟩, ⟨"Bad.".toList, 2, 2, 1⟩]
    (by decide)
  simpa using h

end BringYourSub
